import Mathlib

/-!
Shallow embedding of the wangle `Pipeline<R, W>` core
(`wangle/channel/Pipeline.h` and `wangle/channel/Pipeline-inl.h`).

Contexts are heap objects reached through pointers; we model pointer
identity by an allocation counter (`nextId`): every `std::make_shared`
of a context yields a fresh id.  The contexts' full states live in
`Pipeline.ctxs` (the embedding of `ctxs_`, in chain order), while
`inCtxs` / `outCtxs` embed the raw-pointer vectors `inCtxs_` /
`outCtxs_` as lists of context ids.  Writing through such a pointer
(`setNextIn` / `setNextOut`) is a pointwise update of the context with
that id.

The `dynamic_cast<InboundLink<R>*>` / `dynamic_cast<OutboundLink<W>*>`
performed by `finalize` is modelled as succeeding: a context enters
`inCtxs_` (resp. `outCtxs_`) only when its direction includes IN
(resp. OUT), in which case its concrete context class implements the
inbound (resp. outbound) link interface; cross-edge message-type
agreement is an assembly-time obligation of the caller.  The
`dynamic_cast<Context*>` in `getHandler` and `setOwner` is the
interesting one (it can fail) and is modelled by the stored handler
type tag `htype`.

`attachPipeline` / `detachPipeline` calls into handlers are observable
events; functions that make such calls return the list of calls in
call order.
-/

namespace Wangle

/-- Direction tag declared per handler, `HandlerDir` with members
`IN`, `OUT`, `BOTH`. -/
inductive HandlerDir
  | IN
  | OUT
  | BOTH
  deriving DecidableEq, Repr

/-- The guard `Context::dir == HandlerDir::BOTH || Context::dir == HandlerDir::IN` under which `addHelper` inserts into `inCtxs_`. -/
def hasInDir (d : HandlerDir) : Bool :=
  d == HandlerDir.BOTH || d == HandlerDir.IN

/-- The guard `Context::dir == HandlerDir::BOTH || Context::dir == HandlerDir::OUT` under which `addHelper` inserts into `outCtxs_`. -/
def hasOutDir (d : HandlerDir) : Bool :=
  d == HandlerDir.BOTH || d == HandlerDir.OUT

/-- State of one `PipelineContext` heap object: its pointer identity
`id`, its direction, the concrete context/handler type tag `htype`
(deciding the `dynamic_cast<Context*>` in `getHandler` / `setOwner`),
the wrapped handler pointer, and the two neighbour slots.  The
neighbour slots are the `nextIn_` / `nextOut_` members that
`setNextIn` / `setNextOut` assign; they start null on construction. -/
structure PipelineContext where
  id : Nat
  dir : HandlerDir
  htype : Nat
  handler : Nat
  nextIn : Option Nat
  nextOut : Option Nat
  deriving DecidableEq, Repr

/-- An observable lifecycle call into a handler's context. -/
inductive PEvent
  | attach (ctxId : Nat)
  | detach (ctxId : Nat)
  deriving DecidableEq, Repr

/-- State of a `Pipeline<R, W>` object (the fields of `Pipeline` in
`Pipeline.h` that the verified operations touch, plus the `manager_`
field inherited from `PipelineBase` and the allocation counter). -/
structure Pipeline where
  isStatic : Bool
  owner : Option Nat
  ctxs : List PipelineContext
  inCtxs : List Nat
  outCtxs : List Nat
  front : Option Nat
  back : Option Nat
  manager : Option Nat
  nextId : Nat
  deriving DecidableEq, Repr

/-- Constructors: `Pipeline()` gives `isStatic_ = false`, the protected
`Pipeline(bool isStatic)` (with `CHECK(isStatic_)`) gives `true`.
All member containers start empty, all pointers null. -/
def mkPipeline (isStatic : Bool) : Pipeline :=
  ⟨isStatic, none, [], [], [], none, none, none, 0⟩

/-- Embedding of `inCtxs_[i]->setNextIn(v)`: writing the `nextIn` slot of the
context whose pointer (id) is `a`. -/
def setNextIn (l : List PipelineContext) (a : Nat) (v : Option Nat) :
    List PipelineContext :=
  l.map fun c => if c.id == a then { c with nextIn := v } else c

/-- Embedding of `outCtxs_[i]->setNextOut(v)`: writing the `nextOut` slot of the
context whose pointer (id) is `a`. -/
def setNextOut (l : List PipelineContext) (a : Nat) (v : Option Nat) :
    List PipelineContext :=
  l.map fun c => if c.id == a then { c with nextOut := v } else c

/-- The loop `for (i = 0; i < inCtxs_.size() - 1; i++)
inCtxs_[i]->setNextIn(inCtxs_[i+1])`: for each adjacent pair `(a, b)`
of `inCtxs_`, in ascending order, set `a`'s `nextIn` to `b`. -/
def wireIn : List PipelineContext → List Nat → List PipelineContext
  | l, a :: b :: rest => wireIn (setNextIn l a (some b)) (b :: rest)
  | l, _ => l

/-- The loop `for (i = outCtxs_.size() - 1; i > 0; i--)
outCtxs_[i]->setNextOut(outCtxs_[i-1])`: for each adjacent pair
`(a, b)` of `outCtxs_`, in descending order, set `b`'s `nextOut`
to `a`. -/
def wireOut : List PipelineContext → List Nat → List PipelineContext
  | l, a :: b :: rest => setNextOut (wireOut l (b :: rest)) b (some a)
  | l, _ => l

/-- Embedding of `Pipeline<R, W>::finalize()`.  Step 1: when `inCtxs_` is non-empty,
`front_` becomes the first inbound context and the ascending loop wires
`nextIn` pointers (when `inCtxs_` is empty `front_` is left alone and
the loop body is the identity, which `wireIn`/`wireOut` already are on
lists shorter than two).  Step 2 symmetrically for `back_` / `nextOut`,
descending.  Step 3 (the two `logWarningIfNotNothing` calls) only logs.
Step 4 calls `attachPipeline` on every context in reverse `ctxs_`
order; the returned event list records those calls in call order. -/
def finalize (p : Pipeline) : Pipeline × List PEvent :=
  let p1 := { p with
    front := if p.inCtxs.isEmpty then p.front else p.inCtxs.head?,
    ctxs := wireIn p.ctxs p.inCtxs }
  let p2 := { p1 with
    back := if p1.outCtxs.isEmpty then p1.back else p1.outCtxs.getLast?,
    ctxs := wireOut p1.ctxs p1.outCtxs }
  (p2, p2.ctxs.reverse.map fun c => PEvent.attach c.id)

/-- Embedding of `Pipeline<R, W>::addHelper(ctx, front)`: allocate nothing here (the
context `c` was just `make_shared`'d by the caller, so its id is fresh),
insert it at the chosen end of `ctxs_`, and at the same end of
`inCtxs_` / `outCtxs_` according to its direction.  No neighbour is
wired and no lifecycle call is made, hence the empty event list. -/
def addHelper (p : Pipeline) (dir : HandlerDir) (htype handler : Nat)
    (front : Bool) : Pipeline × List PEvent :=
  let c : PipelineContext := ⟨p.nextId, dir, htype, handler, none, none⟩
  ({ p with
      ctxs := if front then c :: p.ctxs else p.ctxs ++ [c],
      inCtxs := if hasInDir dir then
          (if front then c.id :: p.inCtxs else p.inCtxs ++ [c.id])
        else p.inCtxs,
      outCtxs := if hasOutDir dir then
          (if front then c.id :: p.outCtxs else p.outCtxs ++ [c.id])
        else p.outCtxs,
      nextId := p.nextId + 1 }, ([] : List PEvent))

/-- Embedding of `Pipeline<R, W>::addBack(handler)`: make a context and
`addHelper(ctx, false)`. -/
def addBack (p : Pipeline) (dir : HandlerDir) (htype handler : Nat) :
    Pipeline × List PEvent :=
  addHelper p dir htype handler false

/-- Embedding of `Pipeline<R, W>::addFront(handler)`: make a context and
`addHelper(ctx, true)`. -/
def addFront (p : Pipeline) (dir : HandlerDir) (htype handler : Nat) :
    Pipeline × List PEvent :=
  addHelper p dir htype handler true

/-- Embedding of `Pipeline<R, W>::setOwner(handler)`: scan `ctxs_` in order for the
first context whose `dynamic_cast<Context*>` succeeds (type tag match)
and whose wrapped handler pointer equals `handler`; record it as
`owner_` and return `true`, else return `false`. -/
def setOwner (p : Pipeline) (htype handler : Nat) : Pipeline × Bool :=
  match p.ctxs.find? (fun c => c.htype == htype && c.handler == handler) with
  | some c => ({ p with owner := some c.id }, true)
  | none => (p, false)

/-- Embedding of `Pipeline<R, W>::detachHandlers()`: call `detachPipeline` on every
context of `ctxs_`, in forward order, except the context that equals
`owner_` (shared-pointer identity, hence id equality). -/
def detachHandlers (p : Pipeline) : List PEvent :=
  (p.ctxs.filter fun c => !(p.owner == some c.id)).map fun c =>
    PEvent.detach c.id

/-- Embedding of the destructor of `Pipeline<R, W>`: a non-static pipeline detaches its
handlers, a static one does nothing. -/
def destructPipeline (p : Pipeline) : List PEvent :=
  if p.isStatic then [] else detachHandlers p

/-- Error kinds raised by direction-gated operations on a pipeline with
no servicing handler (`std::invalid_argument` in the source; the spec
names them NoInboundHandler / NoOutboundHandler). -/
inductive PipelineError
  | NoInboundHandler
  | NoOutboundHandler
  deriving DecidableEq, Repr

/-- Embedding of `Pipeline<R, W>::read(msg)` with `R` not `Nothing` (the
`enable_if` gating is compile-time; only the enabled instantiation is
modelled): throw when `front_` is null, else forward to `front_`.  The
result records which inbound link received the call. -/
def read (p : Pipeline) : Except PipelineError Nat :=
  match p.front with
  | none => Except.error PipelineError.NoInboundHandler
  | some f => Except.ok f

/-- Embedding of `Pipeline<R, W>::readEOF()`: throw when `front_` is null, else
forward to `front_`. -/
def readEOF (p : Pipeline) : Except PipelineError Nat :=
  match p.front with
  | none => Except.error PipelineError.NoInboundHandler
  | some f => Except.ok f

/-- Embedding of `Pipeline<R, W>::readException(e)`: throw when `front_` is null,
else forward to `front_`. -/
def readException (p : Pipeline) : Except PipelineError Nat :=
  match p.front with
  | none => Except.error PipelineError.NoInboundHandler
  | some f => Except.ok f

/-- Embedding of `Pipeline<R, W>::transportActive()`: forward to `front_` when it is
non-null, otherwise do nothing — never an error. -/
def transportActive (p : Pipeline) : Except PipelineError (Option Nat) :=
  Except.ok p.front

/-- Embedding of `Pipeline<R, W>::transportInactive()`: forward to `front_` when it
is non-null, otherwise do nothing — never an error. -/
def transportInactive (p : Pipeline) : Except PipelineError (Option Nat) :=
  Except.ok p.front

/-- Embedding of `Pipeline<R, W>::write(msg)` with `W` not `Nothing`: throw when
`back_` is null, else forward to `back_`. -/
def write (p : Pipeline) : Except PipelineError Nat :=
  match p.back with
  | none => Except.error PipelineError.NoOutboundHandler
  | some b => Except.ok b

/-- Embedding of `Pipeline<R, W>::close()`: throw when `back_` is null, else forward
to `back_`. -/
def close (p : Pipeline) : Except PipelineError Nat :=
  match p.back with
  | none => Except.error PipelineError.NoOutboundHandler
  | some b => Except.ok b

/-- Result of `getHandler`: either the stored handler pointer, or the
`CHECK(ctx)` failure after `dynamic_cast<Context*>` returned null
(handler type mismatch). -/
inductive GetHandlerResult
  | ok (handler : Nat)
  | typeMismatch
  deriving DecidableEq, Repr

/-- Embedding of `Pipeline<R, W>::getHandler<H>(i)`: `dynamic_cast` `ctxs_[i]` to
the context type of `H` — success is type-tag equality — then
`CHECK(ctx)` and return the stored handler.  `none` models the
out-of-range vector access (undefined behaviour, not claimed about). -/
def getHandler (p : Pipeline) (htype : Nat) (i : Nat) :
    Option GetHandlerResult :=
  (p.ctxs.get? i).map fun c =>
    if c.htype == htype then GetHandlerResult.ok c.handler
    else GetHandlerResult.typeMismatch

/-- Embedding of `PipelineBase::setPipelineManager(manager)`. -/
def setPipelineManager (p : Pipeline) (m : Nat) : Pipeline :=
  { p with manager := some m }

/-- Embedding of `PipelineBase::deletePipeline()`: when a manager is set, call
`manager_->deletePipeline(this)`; otherwise do nothing.  The second
component records the call made, as the manager together with the
pipeline passed to it. -/
def deletePipeline (p : Pipeline) : Pipeline × Option (Nat × Pipeline) :=
  match p.manager with
  | none => (p, none)
  | some m => (p, some (m, p))

/-- The mutating operations a client may perform while assembling a
pipeline: `addFront` / `addBack` (with the new handler's direction,
type tag and pointer), `finalize`, and `setOwner`. -/
inductive Op
  | add (front : Bool) (dir : HandlerDir) (htype handler : Nat)
  | fin
  | setOwnerOp (htype handler : Nat)
  deriving DecidableEq, Repr

/-- Apply one operation to a pipeline state. -/
def runOp (p : Pipeline) : Op → Pipeline
  | Op.add f d t h => (addHelper p d t h f).1
  | Op.fin => (finalize p).1
  | Op.setOwnerOp t h => (setOwner p t h).1

/-- The pipeline state reached from a fresh pipeline by a sequence of
operations: the reachable states of the embedding. -/
def run (st : Bool) (ops : List Op) : Pipeline :=
  ops.foldl runOp (mkPipeline st)

/-- Sample assembly (the spec's S5 shape): an IN handler, then a BOTH
handler, then an OUT handler, all added at the back. -/
def wops : List Op :=
  [Op.add false HandlerDir.IN 10 100,
   Op.add false HandlerDir.BOTH 11 101,
   Op.add false HandlerDir.OUT 12 102]

/-- Sample assembly with an owner: `wops` followed by `setOwner` of the
BOTH handler. -/
def wops5 : List Op :=
  wops ++ [Op.setOwnerOp 11 101]

/-- Invariant of the reachable pipeline states: `inCtxs_` / `outCtxs_`
are the id sequences of the direction-filtered `ctxs_` (in `ctxs_`
order), context ids are pairwise distinct and below the allocation
counter, the inbound tail's `nextIn` and outbound head's `nextOut` are
null, and `front_` / `back_` are null while no handler services their
direction. -/
structure Inv (p : Pipeline) : Prop where
  hin : p.inCtxs = (p.ctxs.filter fun c => hasInDir c.dir).map fun c => c.id
  hout : p.outCtxs = (p.ctxs.filter fun c => hasOutDir c.dir).map fun c => c.id
  hnd : (p.ctxs.map fun c => c.id).Nodup
  hlt : ∀ c ∈ p.ctxs, c.id < p.nextId
  htailIn : ∀ a, p.inCtxs.getLast? = some a →
    ∃ c, p.ctxs.find? (fun x => x.id == a) = some c ∧ c.nextIn = none
  hheadOut : ∀ a, p.outCtxs.head? = some a →
    ∃ c, p.ctxs.find? (fun x => x.id == a) = some c ∧ c.nextOut = none
  hfront : p.inCtxs = [] → p.front = none
  hback : p.outCtxs = [] → p.back = none

/-- Lookup `find?` by pointer identity commutes with a pointwise update that
preserves pointer identities. -/
theorem find?_map_idpres (f : PipelineContext → PipelineContext)
    (hf : ∀ c, (f c).id = c.id) (l : List PipelineContext) (x : Nat) :
    (l.map f).find? (fun c => c.id == x)
      = (l.find? (fun c => c.id == x)).map f := by
  induction l with
  | nil => rfl
  | cons c tl ih =>
    by_cases h : c.id = x
    · simp [List.find?_cons, hf, h]
    · simp only [List.map_cons, List.find?_cons, hf c, ih]
      have : (c.id == x) = false := by simp [h]
      simp [this]

/-- A context found by id has that id. -/
theorem find?_id_eq {l : List PipelineContext} {x : Nat} {c : PipelineContext}
    (h : l.find? (fun c => c.id == x) = some c) : c.id = x := by
  simpa using List.find?_some h

/-- No context is found under an id absent from the list. -/
theorem find?_eq_none_of_ids (l : List PipelineContext) (a : Nat)
    (h : a ∉ l.map fun c => c.id) : l.find? (fun c => c.id == a) = none := by
  rw [List.find?_eq_none]
  intro c hc
  simp only [beq_iff_eq]
  intro hca
  exact h (hca ▸ List.mem_map_of_mem (fun c => c.id) hc)

/-- With pairwise distinct ids, `find?` by a member's id returns that
member. -/
theorem find?_of_nodup {l : List PipelineContext} {c : PipelineContext}
    (hnd : (l.map fun c => c.id).Nodup) (hc : c ∈ l) :
    l.find? (fun x => x.id == c.id) = some c := by
  induction l with
  | nil => cases hc
  | cons d tl ih =>
    rcases List.mem_cons.mp hc with rfl | hc'
    · simp [List.find?_cons]
    · have hd : d.id ≠ c.id := by
        intro he
        apply (List.nodup_cons.mp hnd).1
        show d.id ∈ List.map (fun c => c.id) tl
        rw [he]
        exact List.mem_map_of_mem (fun c => c.id) hc'
      have : (d.id == c.id) = false := by simp [hd]
      simp only [List.find?_cons, this]
      exact ih (List.nodup_cons.mp hnd).2 hc'

/-- Unfolding `setNextIn` through `find?`. -/
theorem find?_setNextIn (l : List PipelineContext) (a : Nat) (v : Option Nat)
    (x : Nat) :
    (setNextIn l a v).find? (fun c => c.id == x)
      = (l.find? (fun c => c.id == x)).map
          fun c => if c.id == a then { c with nextIn := v } else c := by
  apply find?_map_idpres
  intro c
  by_cases h : c.id = a <;> simp [h]

/-- Unfolding `setNextOut` through `find?`. -/
theorem find?_setNextOut (l : List PipelineContext) (a : Nat) (v : Option Nat)
    (x : Nat) :
    (setNextOut l a v).find? (fun c => c.id == x)
      = (l.find? (fun c => c.id == x)).map
          fun c => if c.id == a then { c with nextOut := v } else c := by
  apply find?_map_idpres
  intro c
  by_cases h : c.id = a <;> simp [h]

/-- The inbound wiring loop only writes contexts that have a successor
in `inCtxs_`, i.e. those of `ids.dropLast`. -/
theorem wireIn_find?_notMem : ∀ (ids : List Nat) (l : List PipelineContext)
    (x : Nat), x ∉ ids.dropLast →
    (wireIn l ids).find? (fun c => c.id == x) = l.find? (fun c => c.id == x)
  | [], _, _, _ => rfl
  | [_], _, _, _ => rfl
  | a :: b :: rest, l, x, h => by
    rw [List.dropLast_cons₂, List.mem_cons, not_or] at h
    rw [wireIn, wireIn_find?_notMem (b :: rest) _ x h.2, find?_setNextIn]
    cases hfind : l.find? (fun c => c.id == x) with
    | none => rfl
    | some c =>
      have hx : c.id = x := find?_id_eq hfind
      simp only [Option.map_some', Option.some.injEq]
      rw [if_neg (by simp only [hx, beq_iff_eq]; exact h.1)]

/-- The outbound wiring loop only writes contexts that have a
predecessor in `outCtxs_`, i.e. those of `ids.tail`. -/
theorem wireOut_find?_notMem : ∀ (ids : List Nat) (l : List PipelineContext)
    (x : Nat), x ∉ ids.tail →
    (wireOut l ids).find? (fun c => c.id == x) = l.find? (fun c => c.id == x)
  | [], _, _, _ => rfl
  | [_], _, _, _ => rfl
  | a :: b :: rest, l, x, h => by
    rw [List.tail_cons, List.mem_cons, not_or] at h
    have h2 : x ∉ (b :: rest).tail := by
      simpa using h.2
    rw [wireOut, find?_setNextOut, wireOut_find?_notMem (b :: rest) l x h2]
    cases hfind : l.find? (fun c => c.id == x) with
    | none => rfl
    | some c =>
      have hx : c.id = x := find?_id_eq hfind
      simp only [Option.map_some', Option.some.injEq]
      rw [if_neg (by simp only [hx, beq_iff_eq]; exact h.1)]

/-- The inbound wiring loop never creates or drops a context. -/
theorem wireIn_find?_isSome : ∀ (ids : List Nat) (l : List PipelineContext)
    (x : Nat),
    ((wireIn l ids).find? (fun c => c.id == x)).isSome
      = (l.find? (fun c => c.id == x)).isSome
  | [], _, _ => rfl
  | [_], _, _ => rfl
  | a :: b :: rest, l, x => by
    rw [wireIn, wireIn_find?_isSome (b :: rest) _ x, find?_setNextIn,
      Option.isSome_map']

/-- The outbound wiring loop never creates or drops a context. -/
theorem wireOut_find?_isSome : ∀ (ids : List Nat) (l : List PipelineContext)
    (x : Nat),
    ((wireOut l ids).find? (fun c => c.id == x)).isSome
      = (l.find? (fun c => c.id == x)).isSome
  | [], _, _ => rfl
  | [_], _, _ => rfl
  | a :: b :: rest, l, x => by
    rw [wireOut, find?_setNextOut, Option.isSome_map',
      wireOut_find?_isSome (b :: rest) l x]

/-- The inbound wiring loop leaves every `nextOut` slot alone. -/
theorem wireIn_find?_nextOut : ∀ (ids : List Nat) (l : List PipelineContext)
    (x : Nat),
    ((wireIn l ids).find? (fun c => c.id == x)).map (fun c => c.nextOut)
      = (l.find? (fun c => c.id == x)).map fun c => c.nextOut
  | [], _, _ => rfl
  | [_], _, _ => rfl
  | a :: b :: rest, l, x => by
    rw [wireIn, wireIn_find?_nextOut (b :: rest) _ x, find?_setNextIn,
      Option.map_map]
    congr 1
    funext c
    by_cases h : c.id = a <;> simp [h]

/-- The outbound wiring loop leaves every `nextIn` slot alone. -/
theorem wireOut_find?_nextIn : ∀ (ids : List Nat) (l : List PipelineContext)
    (x : Nat),
    ((wireOut l ids).find? (fun c => c.id == x)).map (fun c => c.nextIn)
      = (l.find? (fun c => c.id == x)).map fun c => c.nextIn
  | [], _, _ => rfl
  | [_], _, _ => rfl
  | a :: b :: rest, l, x => by
    rw [wireOut, find?_setNextOut, Option.map_map]
    have : ((wireOut l (b :: rest)).find? (fun c => c.id == x)).map
        ((fun c => c.nextIn) ∘ fun c =>
          if c.id == b then { c with nextOut := some a } else c)
      = ((wireOut l (b :: rest)).find? (fun c => c.id == x)).map
          fun c => c.nextIn := by
      congr 1
      funext c
      by_cases h : c.id = b <;> simp [h]
    rw [this, wireOut_find?_nextIn (b :: rest) l x]

/-- The inbound wiring loop writes `nextIn := inCtxs_[i+1]` through the
pointer `inCtxs_[i]`, for distinct pointers. -/
theorem wireIn_find?_adj : ∀ (ids : List Nat) (l : List PipelineContext)
    (i a b : Nat), ids.Nodup → ids.get? i = some a →
    ids.get? (i + 1) = some b →
    (wireIn l ids).find? (fun c => c.id == a)
      = (l.find? (fun c => c.id == a)).map fun c => { c with nextIn := some b }
  | [], _, _, _, _, _, ha, _ => by simp at ha
  | [_], _, i, _, _, _, _, hb => by
    cases i <;> simp at hb
  | a0 :: b0 :: rest, l, i, a, b, hnd, ha, hb => by
    cases i with
    | zero =>
      have haa : a0 = a := by simpa using ha
      have hbb : b0 = b := by simpa using hb
      rw [haa, hbb] at hnd ⊢
      have hmem : a ∉ b :: rest := (List.nodup_cons.mp hnd).1
      have hnotin : a ∉ (b :: rest).dropLast := fun hm =>
        hmem ((List.dropLast_sublist (b :: rest)).mem hm)
      rw [wireIn, wireIn_find?_notMem _ _ _ hnotin, find?_setNextIn]
      cases hfind : l.find? (fun c => c.id == a) with
      | none => rfl
      | some c =>
        have hx : c.id = a := find?_id_eq hfind
        simp only [Option.map_some', Option.some.injEq]
        rw [if_pos (by simp [hx])]
    | succ j =>
      have ha' : (b0 :: rest).get? j = some a := by simpa using ha
      have hb' : (b0 :: rest).get? (j + 1) = some b := by simpa using hb
      have hamem : a ∈ b0 :: rest := List.get?_mem ha'
      have hne : a ≠ a0 := fun he =>
        (List.nodup_cons.mp hnd).1 (he ▸ hamem)
      rw [wireIn, wireIn_find?_adj (b0 :: rest) _ j a b
        (List.nodup_cons.mp hnd).2 ha' hb', find?_setNextIn]
      cases hfind : l.find? (fun c => c.id == a) with
      | none => rfl
      | some c =>
        have hx : c.id = a := find?_id_eq hfind
        simp only [Option.map_some', Option.some.injEq]
        rw [if_neg (by simp only [hx, beq_iff_eq]; exact hne)]

/-- The outbound wiring loop writes `nextOut := outCtxs_[i-1]` through
the pointer `outCtxs_[i]`, for distinct pointers. -/
theorem wireOut_find?_adj : ∀ (ids : List Nat) (l : List PipelineContext)
    (i a b : Nat), ids.Nodup → ids.get? i = some a →
    ids.get? (i + 1) = some b →
    (wireOut l ids).find? (fun c => c.id == b)
      = (l.find? (fun c => c.id == b)).map fun c => { c with nextOut := some a }
  | [], _, _, _, _, _, ha, _ => by simp at ha
  | [_], _, i, _, _, _, _, hb => by
    cases i <;> simp at hb
  | a0 :: b0 :: rest, l, i, a, b, hnd, ha, hb => by
    cases i with
    | zero =>
      have haa : a0 = a := by simpa using ha
      have hbb : b0 = b := by simpa using hb
      rw [haa, hbb] at hnd ⊢
      have hmem : b ∉ rest := by
        have := (List.nodup_cons.mp (List.nodup_cons.mp hnd).2).1
        simpa using this
      have hnotin : b ∉ (b :: rest).tail := by simpa using hmem
      rw [wireOut, find?_setNextOut, wireOut_find?_notMem _ _ _ hnotin]
      cases hfind : l.find? (fun c => c.id == b) with
      | none => rfl
      | some c =>
        have hx : c.id = b := find?_id_eq hfind
        simp only [Option.map_some', Option.some.injEq]
        rw [if_pos (by simp [hx])]
    | succ j =>
      have ha' : (b0 :: rest).get? j = some a := by simpa using ha
      have hb' : (b0 :: rest).get? (j + 1) = some b := by simpa using hb
      have hbmem : b ∈ rest := List.get?_mem (by simpa using hb')
      have hne : b ≠ b0 := fun he =>
        (List.nodup_cons.mp (List.nodup_cons.mp hnd).2).1 (he ▸ hbmem)
      rw [wireOut, find?_setNextOut, wireOut_find?_adj (b0 :: rest) l j a b
        (List.nodup_cons.mp hnd).2 ha' hb']
      cases hfind : l.find? (fun c => c.id == b) with
      | none => rfl
      | some c =>
        have hx : c.id = b := find?_id_eq hfind
        simp only [Option.map_some', Option.some.injEq]
        rw [if_neg (by simp only [hx, beq_iff_eq]; exact hne)]

/-- Lookup `find?` hits a matching head. -/
theorem find?_cons_self (c : PipelineContext) (l : List PipelineContext) :
    (c :: l).find? (fun x => x.id == c.id) = some c := by
  simp [List.find?_cons]

/-- Lookup `find?` skips a non-matching head. -/
theorem find?_cons_ne (c : PipelineContext) (l : List PipelineContext)
    (a : Nat) (h : c.id ≠ a) :
    (c :: l).find? (fun x => x.id == a) = l.find? fun x => x.id == a := by
  have : (c.id == a) = false := by simp [h]
  simp [List.find?_cons, this]

/-- A hit in the front part survives appending. -/
theorem find?_append_some {l1 l2 : List PipelineContext}
    {pr : PipelineContext → Bool} {c : PipelineContext}
    (h : l1.find? pr = some c) : (l1 ++ l2).find? pr = some c := by
  rw [List.find?_append, h]
  rfl

/-- A miss in the front part defers to the appended part. -/
theorem find?_append_none {l1 l2 : List PipelineContext}
    {pr : PipelineContext → Bool} (h : l1.find? pr = none) :
    (l1 ++ l2).find? pr = l2.find? pr := by
  rw [List.find?_append, h]
  rfl

/-- The last element of a list is a member. -/
theorem mem_of_getLast?_eq_some {l : List Nat} {a : Nat}
    (h : l.getLast? = some a) : a ∈ l := by
  obtain ⟨hne, h2⟩ := List.mem_getLast?_eq_getLast (Option.mem_def.mpr h)
  exact h2 ▸ List.getLast_mem hne

/-- In a duplicate-free list the last element does not also occur
earlier. -/
theorem not_mem_dropLast_of_getLast? {l : List Nat} {a : Nat}
    (hnd : l.Nodup) (h : l.getLast? = some a) : a ∉ l.dropLast := by
  intro hm
  have hne : l ≠ [] := by
    rintro rfl
    simp at h
  have hsplit : l.dropLast ++ [l.getLast hne] = l :=
    List.dropLast_append_getLast hne
  have hga : l.getLast hne = a := by
    rw [List.getLast?_eq_getLast_of_ne_nil hne] at h
    simpa using h
  rw [← hsplit] at hnd
  exact (List.nodup_append.mp hnd).2.2 hm (by simp [hga])

/-- A pointwise update preserving ids and directions preserves the id
sequence of every direction filter. -/
theorem filter_map_map_idpres (f : PipelineContext → PipelineContext)
    (hid : ∀ c, (f c).id = c.id) (hdir : ∀ c, (f c).dir = c.dir)
    (pb : HandlerDir → Bool) (l : List PipelineContext) :
    ((l.map f).filter (fun c => pb c.dir)).map (fun c => c.id)
      = (l.filter (fun c => pb c.dir)).map fun c => c.id := by
  induction l with
  | nil => rfl
  | cons c tl ih =>
    cases hpb : pb c.dir <;>
      simp [List.filter_cons, hdir, hid, hpb, ih]

/-- A pointwise update preserving ids preserves the id sequence. -/
theorem map_map_idpres (f : PipelineContext → PipelineContext)
    (hid : ∀ c, (f c).id = c.id) (l : List PipelineContext) :
    (l.map f).map (fun c => c.id) = l.map fun c => c.id := by
  induction l with
  | nil => rfl
  | cons c tl ih => simp [hid, ih]

/-- The inbound wiring loop moves no context and changes no direction:
every direction filter keeps the same id sequence. -/
theorem wireIn_filter_ids (pb : HandlerDir → Bool) : ∀ (ids : List Nat)
    (l : List PipelineContext),
    ((wireIn l ids).filter (fun c => pb c.dir)).map (fun c => c.id)
      = (l.filter (fun c => pb c.dir)).map fun c => c.id
  | [], _ => rfl
  | [_], _ => rfl
  | a :: b :: rest, l => by
    rw [wireIn, wireIn_filter_ids pb (b :: rest) _]
    simp only [setNextIn]
    exact filter_map_map_idpres _
      (fun c => by by_cases h : c.id = a <;> simp [h])
      (fun c => by by_cases h : c.id = a <;> simp [h]) pb l

/-- The outbound wiring loop moves no context and changes no direction:
every direction filter keeps the same id sequence. -/
theorem wireOut_filter_ids (pb : HandlerDir → Bool) : ∀ (ids : List Nat)
    (l : List PipelineContext),
    ((wireOut l ids).filter (fun c => pb c.dir)).map (fun c => c.id)
      = (l.filter (fun c => pb c.dir)).map fun c => c.id
  | [], _ => rfl
  | [_], _ => rfl
  | a :: b :: rest, l => by
    rw [wireOut]
    simp only [setNextOut]
    rw [filter_map_map_idpres _
      (fun c => by by_cases h : c.id = b <;> simp [h])
      (fun c => by by_cases h : c.id = b <;> simp [h]) pb _]
    exact wireOut_filter_ids pb (b :: rest) l

/-- The inbound wiring loop preserves the id sequence of `ctxs_`. -/
theorem wireIn_ids : ∀ (ids : List Nat) (l : List PipelineContext),
    (wireIn l ids).map (fun c => c.id) = l.map fun c => c.id
  | [], _ => rfl
  | [_], _ => rfl
  | a :: b :: rest, l => by
    rw [wireIn, wireIn_ids (b :: rest) _]
    simp only [setNextIn]
    exact map_map_idpres _ (fun c => by by_cases h : c.id = a <;> simp [h]) l

/-- The outbound wiring loop preserves the id sequence of `ctxs_`. -/
theorem wireOut_ids : ∀ (ids : List Nat) (l : List PipelineContext),
    (wireOut l ids).map (fun c => c.id) = l.map fun c => c.id
  | [], _ => rfl
  | [_], _ => rfl
  | a :: b :: rest, l => by
    rw [wireOut]
    simp only [setNextOut]
    rw [map_map_idpres _ (fun c => by by_cases h : c.id = b <;> simp [h]) _]
    exact wireOut_ids (b :: rest) l

/-- A fresh pipeline satisfies the invariant. -/
theorem Inv_mkPipeline (st : Bool) : Inv (mkPipeline st) := by
  constructor <;> simp [mkPipeline]

/-- Every id in `inCtxs_` is the id of a context of `ctxs_`. -/
theorem Inv.mem_in_ctxs {p : Pipeline} (h : Inv p) {a : Nat}
    (ha : a ∈ p.inCtxs) : ∃ c ∈ p.ctxs, c.id = a := by
  rw [h.hin] at ha
  obtain ⟨c, hcf, hid⟩ := List.mem_map.mp ha
  exact ⟨c, List.mem_of_mem_filter hcf, hid⟩

/-- Every id in `outCtxs_` is the id of a context of `ctxs_`. -/
theorem Inv.mem_out_ctxs {p : Pipeline} (h : Inv p) {a : Nat}
    (ha : a ∈ p.outCtxs) : ∃ c ∈ p.ctxs, c.id = a := by
  rw [h.hout] at ha
  obtain ⟨c, hcf, hid⟩ := List.mem_map.mp ha
  exact ⟨c, List.mem_of_mem_filter hcf, hid⟩

/-- Dereferencing an id of `inCtxs_` in `ctxs_` succeeds. -/
theorem Inv.find?_of_mem_in {p : Pipeline} (h : Inv p) {a : Nat}
    (ha : a ∈ p.inCtxs) :
    ∃ c, p.ctxs.find? (fun x => x.id == a) = some c := by
  obtain ⟨c0, hc0, hid⟩ := h.mem_in_ctxs ha
  exact ⟨c0, hid ▸ find?_of_nodup h.hnd hc0⟩

/-- Dereferencing an id of `outCtxs_` in `ctxs_` succeeds. -/
theorem Inv.find?_of_mem_out {p : Pipeline} (h : Inv p) {a : Nat}
    (ha : a ∈ p.outCtxs) :
    ∃ c, p.ctxs.find? (fun x => x.id == a) = some c := by
  obtain ⟨c0, hc0, hid⟩ := h.mem_out_ctxs ha
  exact ⟨c0, hid ▸ find?_of_nodup h.hnd hc0⟩

/-- The sequence `inCtxs_` has pairwise distinct ids. -/
theorem Inv.ndIn {p : Pipeline} (h : Inv p) : p.inCtxs.Nodup := by
  rw [h.hin]
  exact List.Nodup.sublist
    (List.Sublist.map _ (List.filter_sublist p.ctxs)) h.hnd

/-- The sequence `outCtxs_` has pairwise distinct ids. -/
theorem Inv.ndOut {p : Pipeline} (h : Inv p) : p.outCtxs.Nodup := by
  rw [h.hout]
  exact List.Nodup.sublist
    (List.Sublist.map _ (List.filter_sublist p.ctxs)) h.hnd

/-- Ids in `inCtxs_` are below the allocation counter. -/
theorem Inv.in_lt {p : Pipeline} (h : Inv p) {a : Nat}
    (ha : a ∈ p.inCtxs) : a < p.nextId := by
  obtain ⟨c0, hc0, hid⟩ := h.mem_in_ctxs ha
  exact hid ▸ h.hlt c0 hc0

/-- Ids in `outCtxs_` are below the allocation counter. -/
theorem Inv.out_lt {p : Pipeline} (h : Inv p) {a : Nat}
    (ha : a ∈ p.outCtxs) : a < p.nextId := by
  obtain ⟨c0, hc0, hid⟩ := h.mem_out_ctxs ha
  exact hid ▸ h.hlt c0 hc0

/-- Insertion by `addHelper` preserves the invariant: the inserted context is fresh
and goes to the same end of every sequence it belongs to. -/
theorem Inv_addHelper (p : Pipeline) (dir : HandlerDir) (t hd : Nat)
    (f : Bool) (h : Inv p) : Inv (addHelper p dir t hd f).1 := by
  have hfresh : p.nextId ∉ p.ctxs.map fun c => c.id := by
    intro hm
    obtain ⟨c0, hc0, hi⟩ := List.mem_map.mp hm
    exact Nat.ne_of_lt (h.hlt c0 hc0) hi
  have hfind0 : p.ctxs.find? (fun x => x.id == p.nextId) = none :=
    find?_eq_none_of_ids _ _ hfresh
  refine ⟨?_, ?_, ?_, ?_, ?_, ?_, ?_, ?_⟩
  · cases f <;> cases hdi : hasInDir dir <;>
      simp [addHelper, List.filter_cons, List.filter_append, hdi, h.hin]
  · cases f <;> cases hdo : hasOutDir dir <;>
      simp [addHelper, List.filter_cons, List.filter_append, hdo, h.hout]
  · cases f <;>
      simp [addHelper, List.nodup_cons, List.nodup_append, hfresh, h.hnd]
  · intro c' hc'
    cases f with
    | true =>
      simp only [addHelper, if_true] at hc' ⊢
      rcases List.mem_cons.mp hc' with rfl | hc2
      · exact Nat.lt_succ_self _
      · exact Nat.lt_succ_of_lt (h.hlt c' hc2)
    | false =>
      simp only [addHelper, if_false] at hc' ⊢
      rcases List.mem_append.mp hc' with hc2 | hc2
      · exact Nat.lt_succ_of_lt (h.hlt c' hc2)
      · rcases List.mem_singleton.mp hc2 with rfl
        exact Nat.lt_succ_self _
  · intro a ha
    cases f with
    | true =>
      cases hdi : hasInDir dir with
      | false =>
        simp only [addHelper, hdi, if_true, Bool.false_eq_true, if_false]
          at ha ⊢
        obtain ⟨c0, hf0, hn0⟩ := h.htailIn a ha
        have hlt : a < p.nextId := h.in_lt (mem_of_getLast?_eq_some ha)
        exact ⟨c0, by
          rw [find?_cons_ne _ _ _ (Nat.ne_of_gt hlt)]
          exact hf0, hn0⟩
      | true =>
        simp only [addHelper, hdi, if_true] at ha ⊢
        cases hin0 : p.inCtxs with
        | nil =>
          rw [hin0] at ha
          have haeq : a = p.nextId := by simpa using ha.symm
          subst haeq
          exact ⟨⟨p.nextId, dir, t, hd, none, none⟩, find?_cons_self _ _, rfl⟩
        | cons x xs =>
          rw [hin0, List.getLast?_cons_cons] at ha
          have halast : p.inCtxs.getLast? = some a := by
            rw [hin0]
            exact ha
          obtain ⟨c0, hf0, hn0⟩ := h.htailIn a halast
          have hlt : a < p.nextId := h.in_lt (mem_of_getLast?_eq_some halast)
          exact ⟨c0, by
            rw [find?_cons_ne _ _ _ (Nat.ne_of_gt hlt)]
            exact hf0, hn0⟩
    | false =>
      cases hdi : hasInDir dir with
      | false =>
        simp only [addHelper, hdi, Bool.false_eq_true, if_false] at ha ⊢
        obtain ⟨c0, hf0, hn0⟩ := h.htailIn a ha
        exact ⟨c0, find?_append_some hf0, hn0⟩
      | true =>
        simp only [addHelper, hdi, if_true, Bool.false_eq_true, if_false]
          at ha ⊢
        rw [List.getLast?_concat] at ha
        have haeq : a = p.nextId := by simpa using ha.symm
        subst haeq
        refine ⟨⟨p.nextId, dir, t, hd, none, none⟩, ?_, rfl⟩
        rw [find?_append_none hfind0]
        exact find?_cons_self _ _
  · intro a ha
    cases f with
    | true =>
      cases hdo : hasOutDir dir with
      | false =>
        simp only [addHelper, hdo, if_true, Bool.false_eq_true, if_false]
          at ha ⊢
        obtain ⟨c0, hf0, hn0⟩ := h.hheadOut a ha
        have hmem : a ∈ p.outCtxs :=
          List.mem_of_mem_head? (Option.mem_def.mpr ha)
        have hlt : a < p.nextId := h.out_lt hmem
        exact ⟨c0, by
          rw [find?_cons_ne _ _ _ (Nat.ne_of_gt hlt)]
          exact hf0, hn0⟩
      | true =>
        simp only [addHelper, hdo, if_true] at ha ⊢
        have haeq : a = p.nextId := by simpa using ha.symm
        subst haeq
        exact ⟨⟨p.nextId, dir, t, hd, none, none⟩, find?_cons_self _ _, rfl⟩
    | false =>
      cases hdo : hasOutDir dir with
      | false =>
        simp only [addHelper, hdo, Bool.false_eq_true, if_false] at ha ⊢
        obtain ⟨c0, hf0, hn0⟩ := h.hheadOut a ha
        exact ⟨c0, find?_append_some hf0, hn0⟩
      | true =>
        simp only [addHelper, hdo, if_true, Bool.false_eq_true, if_false]
          at ha ⊢
        cases hout0 : p.outCtxs with
        | nil =>
          rw [hout0] at ha
          have haeq : a = p.nextId := by simpa using ha.symm
          subst haeq
          refine ⟨⟨p.nextId, dir, t, hd, none, none⟩, ?_, rfl⟩
          rw [find?_append_none hfind0]
          exact find?_cons_self _ _
        | cons x xs =>
          rw [hout0] at ha
          have haeq : x = a := by simpa using ha
          have hhead : p.outCtxs.head? = some a := by
            rw [hout0]
            simpa using haeq
          obtain ⟨c0, hf0, hn0⟩ := h.hheadOut a hhead
          exact ⟨c0, find?_append_some hf0, hn0⟩
  · intro hnil
    cases f <;> cases hdi : hasInDir dir <;>
      simp only [addHelper, hdi, if_true, Bool.false_eq_true, if_false]
        at hnil ⊢ <;>
      first
        | exact h.hfront hnil
        | simp at hnil
  · intro hnil
    cases f <;> cases hdo : hasOutDir dir <;>
      simp only [addHelper, hdo, if_true, Bool.false_eq_true, if_false]
        at hnil ⊢ <;>
      first
        | exact h.hback hnil
        | simp at hnil

/-- Unfolding `finalize`: the wired context list. -/
theorem finalize_fst_ctxs (p : Pipeline) :
    (finalize p).1.ctxs = wireOut (wireIn p.ctxs p.inCtxs) p.outCtxs := rfl

/-- Wiring by `finalize` leaves `inCtxs_` unchanged. -/
theorem finalize_fst_inCtxs (p : Pipeline) :
    (finalize p).1.inCtxs = p.inCtxs := rfl

/-- Wiring by `finalize` leaves `outCtxs_` unchanged. -/
theorem finalize_fst_outCtxs (p : Pipeline) :
    (finalize p).1.outCtxs = p.outCtxs := rfl

/-- Unfolding `finalize`: the new `front_`. -/
theorem finalize_fst_front (p : Pipeline) :
    (finalize p).1.front
      = if p.inCtxs.isEmpty then p.front else p.inCtxs.head? := rfl

/-- Unfolding `finalize`: the new `back_`. -/
theorem finalize_fst_back (p : Pipeline) :
    (finalize p).1.back
      = if p.outCtxs.isEmpty then p.back else p.outCtxs.getLast? := rfl

/-- Wiring by `finalize` allocates nothing. -/
theorem finalize_fst_nextId (p : Pipeline) :
    (finalize p).1.nextId = p.nextId := rfl

/-- Unfolding `finalize`: the recorded `attachPipeline` calls. -/
theorem finalize_snd (p : Pipeline) :
    (finalize p).2 = (wireOut (wireIn p.ctxs p.inCtxs) p.outCtxs).reverse.map
      fun c => PEvent.attach c.id := rfl

/-- Composing: the outbound wiring loop keeps a dereference and its
`nextIn` slot intact. -/
theorem wireOut_preserve_nextIn (outIds : List Nat)
    (l : List PipelineContext) (x : Nat) {c : PipelineContext}
    (h : l.find? (fun cc => cc.id == x) = some c) :
    ∃ c2, (wireOut l outIds).find? (fun cc => cc.id == x) = some c2 ∧
      c2.nextIn = c.nextIn := by
  have hs := wireOut_find?_isSome outIds l x
  have hn := wireOut_find?_nextIn outIds l x
  rw [h] at hs hn
  cases h2 : (wireOut l outIds).find? fun cc => cc.id == x with
  | none =>
    rw [h2] at hs
    simp at hs
  | some c2 =>
    rw [h2] at hn
    simp only [Option.map_some', Option.some.injEq] at hn
    exact ⟨c2, rfl, hn⟩

/-- Composing: the inbound wiring loop keeps a dereference and its
`nextOut` slot intact. -/
theorem wireIn_preserve_nextOut (inIds : List Nat)
    (l : List PipelineContext) (x : Nat) {c : PipelineContext}
    (h : l.find? (fun cc => cc.id == x) = some c) :
    ∃ c2, (wireIn l inIds).find? (fun cc => cc.id == x) = some c2 ∧
      c2.nextOut = c.nextOut := by
  have hs := wireIn_find?_isSome inIds l x
  have hn := wireIn_find?_nextOut inIds l x
  rw [h] at hs hn
  cases h2 : (wireIn l inIds).find? fun cc => cc.id == x with
  | none =>
    rw [h2] at hs
    simp at hs
  | some c2 =>
    rw [h2] at hn
    simp only [Option.map_some', Option.some.injEq] at hn
    exact ⟨c2, rfl, hn⟩

/-- In a duplicate-free list the head does not also occur later. -/
theorem not_mem_tail_of_head? {l : List Nat} {a : Nat} (hnd : l.Nodup)
    (h : l.head? = some a) : a ∉ l.tail := by
  cases l with
  | nil => simp at h
  | cons y ys =>
    have hya : y = a := by simpa using h
    subst hya
    simpa using (List.nodup_cons.mp hnd).1

/-- Wiring by `finalize` preserves the invariant. -/
theorem Inv_finalize (p : Pipeline) (h : Inv p) : Inv (finalize p).1 := by
  have hndIn : p.inCtxs.Nodup := h.ndIn
  have hndOut : p.outCtxs.Nodup := h.ndOut
  refine ⟨?_, ?_, ?_, ?_, ?_, ?_, ?_, ?_⟩
  · rw [finalize_fst_inCtxs, finalize_fst_ctxs, wireOut_filter_ids,
      wireIn_filter_ids]
    exact h.hin
  · rw [finalize_fst_outCtxs, finalize_fst_ctxs, wireOut_filter_ids,
      wireIn_filter_ids]
    exact h.hout
  · rw [finalize_fst_ctxs, wireOut_ids, wireIn_ids]
    exact h.hnd
  · intro c hc
    rw [finalize_fst_nextId]
    have hm : c.id ∈ (finalize p).1.ctxs.map fun c => c.id :=
      List.mem_map_of_mem _ hc
    rw [finalize_fst_ctxs, wireOut_ids, wireIn_ids] at hm
    obtain ⟨c0, hc0, hi⟩ := List.mem_map.mp hm
    rw [← hi]
    exact h.hlt c0 hc0
  · intro a ha
    rw [finalize_fst_inCtxs] at ha
    obtain ⟨c0, hf0, hn0⟩ := h.htailIn a ha
    have hnotin : a ∉ p.inCtxs.dropLast :=
      not_mem_dropLast_of_getLast? hndIn ha
    have h1 : (wireIn p.ctxs p.inCtxs).find? (fun x => x.id == a) = some c0 := by
      rw [wireIn_find?_notMem _ _ _ hnotin]
      exact hf0
    obtain ⟨c2, h2, hn2⟩ := wireOut_preserve_nextIn p.outCtxs _ a h1
    rw [finalize_fst_ctxs]
    exact ⟨c2, h2, by rw [hn2, hn0]⟩
  · intro a ha
    rw [finalize_fst_outCtxs] at ha
    obtain ⟨c0, hf0, hn0⟩ := h.hheadOut a ha
    obtain ⟨c1, h1, ho1⟩ := wireIn_preserve_nextOut p.inCtxs _ a hf0
    have hnotin : a ∉ p.outCtxs.tail := not_mem_tail_of_head? hndOut ha
    rw [finalize_fst_ctxs]
    refine ⟨c1, ?_, by rw [ho1, hn0]⟩
    rw [wireOut_find?_notMem _ _ _ hnotin]
    exact h1
  · intro ha
    rw [finalize_fst_inCtxs] at ha
    rw [finalize_fst_front, ha]
    simpa using h.hfront ha
  · intro ha
    rw [finalize_fst_outCtxs] at ha
    rw [finalize_fst_back, ha]
    simpa using h.hback ha

/-- Marking by `setOwner` only changes `owner_`, which the invariant does not
mention. -/
theorem Inv_setOwner (p : Pipeline) (t hd : Nat) (h : Inv p) :
    Inv (setOwner p t hd).1 := by
  unfold setOwner
  cases hf : p.ctxs.find? fun c => c.htype == t && c.handler == hd with
  | none => exact h
  | some c =>
    exact ⟨h.hin, h.hout, h.hnd, h.hlt, h.htailIn, h.hheadOut,
      h.hfront, h.hback⟩

/-- Every operation preserves the invariant. -/
theorem Inv_runOp (p : Pipeline) (op : Op) (h : Inv p) : Inv (runOp p op) := by
  cases op with
  | add f d t hd => exact Inv_addHelper p d t hd f h
  | fin => exact Inv_finalize p h
  | setOwnerOp t hd => exact Inv_setOwner p t hd h

/-- The invariant holds along any operation sequence. -/
theorem Inv_foldl (ops : List Op) : ∀ (p : Pipeline), Inv p →
    Inv (ops.foldl runOp p) := by
  induction ops with
  | nil => exact fun p h => h
  | cons op rest ih => exact fun p h => ih _ (Inv_runOp p op h)

/-- Every reachable pipeline state satisfies the invariant. -/
theorem Inv_run (st : Bool) (ops : List Op) : Inv (run st ops) :=
  Inv_foldl ops _ (Inv_mkPipeline st)

/-- Claim C3: on a pipeline whose direction is enabled but whose
front/back entry is null, `read`, `readEOF` and `readException` raise
NoInboundHandler and `write`/`close` raise NoOutboundHandler, while
`transportActive` and `transportInactive` return normally without any
effect. -/
theorem claim_C3 (p : Pipeline) :
    (p.front = none →
      read p = Except.error PipelineError.NoInboundHandler ∧
      readEOF p = Except.error PipelineError.NoInboundHandler ∧
      readException p = Except.error PipelineError.NoInboundHandler ∧
      transportActive p = Except.ok none ∧
      transportInactive p = Except.ok none) ∧
    (p.back = none →
      write p = Except.error PipelineError.NoOutboundHandler ∧
      close p = Except.error PipelineError.NoOutboundHandler) := by
  constructor
  · intro h
    simp [read, readEOF, readException, transportActive, transportInactive, h]
  · intro h
    simp [write, close, h]

/-- Witness for C3 at a concrete input: the freshly constructed
pipeline, whose `front` and `back` are null. -/
theorem claim_C3_witness :
    (read (mkPipeline false) = Except.error PipelineError.NoInboundHandler ∧
     readEOF (mkPipeline false) = Except.error PipelineError.NoInboundHandler ∧
     readException (mkPipeline false) =
       Except.error PipelineError.NoInboundHandler ∧
     transportActive (mkPipeline false) = Except.ok none ∧
     transportInactive (mkPipeline false) = Except.ok none) ∧
    (write (mkPipeline false) = Except.error PipelineError.NoOutboundHandler ∧
     close (mkPipeline false) = Except.error PipelineError.NoOutboundHandler) :=
  ⟨(claim_C3 (mkPipeline false)).1 rfl, (claim_C3 (mkPipeline false)).2 rfl⟩

/-- Claim C8: `getHandler<T>(i)` returns the handler stored at position
`i` (front = 0) when its type matches `T`, and fails synchronously
(handler type mismatch) when it does not. -/
theorem claim_C8 (p : Pipeline) (T i : Nat) (c : PipelineContext)
    (h : p.ctxs.get? i = some c) :
    (c.htype = T → getHandler p T i = some (GetHandlerResult.ok c.handler)) ∧
    (c.htype ≠ T → getHandler p T i = some GetHandlerResult.typeMismatch) := by
  constructor <;> intro ht <;>
    simp only [getHandler, List.get?_eq_getElem?] at h ⊢ <;>
    rw [h] <;> simp [ht]

/-- Witness for C8 at a concrete input: a one-handler pipeline, probed
with the matching type tag and with a wrong one. -/
theorem claim_C8_witness :
    (run false [Op.add false HandlerDir.IN 10 100]).ctxs.get? 0 =
        some ⟨0, HandlerDir.IN, 10, 100, none, none⟩ ∧
    getHandler (run false [Op.add false HandlerDir.IN 10 100]) 10 0 =
        some (GetHandlerResult.ok 100) ∧
    getHandler (run false [Op.add false HandlerDir.IN 10 100]) 99 0 =
        some GetHandlerResult.typeMismatch := by
  refine ⟨by decide, ?_, ?_⟩
  · exact (claim_C8 (run false [Op.add false HandlerDir.IN 10 100]) 10 0
      ⟨0, HandlerDir.IN, 10, 100, none, none⟩ (by decide)).1 (by decide)
  · exact (claim_C8 (run false [Op.add false HandlerDir.IN 10 100]) 99 0
      ⟨0, HandlerDir.IN, 10, 100, none, none⟩ (by decide)).2 (by decide)

/-- Claim C9: `addFront` and `addBack` only insert a new context: they
leave `front`, `back` and every existing context (in particular its
`nextIn`/`nextOut` slots) unchanged and in place, and they invoke
`attachPipeline` on no context. -/
theorem claim_C9 (p : Pipeline) (dir : HandlerDir) (htype handler : Nat) :
    ((addFront p dir htype handler).2 = [] ∧
     (addFront p dir htype handler).1.front = p.front ∧
     (addFront p dir htype handler).1.back = p.back ∧
     List.Sublist p.ctxs (addFront p dir htype handler).1.ctxs ∧
     (addFront p dir htype handler).1.ctxs.length = p.ctxs.length + 1) ∧
    ((addBack p dir htype handler).2 = [] ∧
     (addBack p dir htype handler).1.front = p.front ∧
     (addBack p dir htype handler).1.back = p.back ∧
     List.Sublist p.ctxs (addBack p dir htype handler).1.ctxs ∧
     (addBack p dir htype handler).1.ctxs.length = p.ctxs.length + 1) := by
  refine ⟨⟨rfl, rfl, rfl, ?_, ?_⟩, ⟨rfl, rfl, rfl, ?_, ?_⟩⟩
  · exact List.sublist_cons_self _ _
  · simp [addFront, addHelper]
  · exact List.sublist_append_left _ _
  · simp [addBack, addHelper]

/-- Claim C10: with no manager set, `deletePipeline()` is a silent
no-op leaving the state unchanged; with a manager set, it forwards
exactly this pipeline to the manager's `deletePipeline` callback. -/
theorem claim_C10 (p : Pipeline) (m : Nat) :
    (p.manager = none → deletePipeline p = (p, none)) ∧
    deletePipeline (setPipelineManager p m) =
      (setPipelineManager p m, some (m, setPipelineManager p m)) := by
  constructor
  · intro h
    simp [deletePipeline, h]
  · simp [deletePipeline, setPipelineManager]

/-- Witness for C10 at a concrete input: a fresh pipeline (no manager)
and the same pipeline after setting manager 7. -/
theorem claim_C10_witness :
    deletePipeline (mkPipeline false) = (mkPipeline false, none) ∧
    deletePipeline (setPipelineManager (mkPipeline false) 7) =
      (setPipelineManager (mkPipeline false) 7,
        some (7, setPipelineManager (mkPipeline false) 7)) :=
  ⟨(claim_C10 (mkPipeline false) 7).1 rfl, (claim_C10 (mkPipeline false) 7).2⟩

/-- After `finalize`, dereferencing `inCtxs_[i]` (when `inCtxs_[i+1]`
exists) yields a context whose `nextIn` is `inCtxs_[i+1]`. -/
theorem finalize_adjIn (p : Pipeline) (h : Inv p) (i a b : Nat)
    (ha : p.inCtxs.get? i = some a) (hb : p.inCtxs.get? (i + 1) = some b) :
    ∃ c, (finalize p).1.ctxs.find? (fun x => x.id == a) = some c ∧
      c.nextIn = some b := by
  obtain ⟨c0, hc0⟩ := h.find?_of_mem_in (List.get?_mem ha)
  have h1 : (wireIn p.ctxs p.inCtxs).find? (fun x => x.id == a)
      = some { c0 with nextIn := some b } := by
    rw [wireIn_find?_adj p.inCtxs p.ctxs i a b h.ndIn ha hb, hc0]
    rfl
  obtain ⟨c2, h2, hn2⟩ := wireOut_preserve_nextIn p.outCtxs _ a h1
  rw [finalize_fst_ctxs]
  exact ⟨c2, h2, by rw [hn2]⟩

/-- After `finalize`, dereferencing `outCtxs_[i+1]` (when `outCtxs_[i]`
exists) yields a context whose `nextOut` is `outCtxs_[i]`. -/
theorem finalize_adjOut (p : Pipeline) (h : Inv p) (i a b : Nat)
    (ha : p.outCtxs.get? i = some a) (hb : p.outCtxs.get? (i + 1) = some b) :
    ∃ c, (finalize p).1.ctxs.find? (fun x => x.id == b) = some c ∧
      c.nextOut = some a := by
  obtain ⟨c0, hc0⟩ := h.find?_of_mem_out (List.get?_mem hb)
  obtain ⟨c1, h1, _⟩ := wireIn_preserve_nextOut p.inCtxs _ b hc0
  rw [finalize_fst_ctxs]
  refine ⟨{ c1 with nextOut := some a }, ?_, rfl⟩
  rw [wireOut_find?_adj p.outCtxs _ i a b h.ndOut ha hb, h1]
  rfl

/-- Claim C1: in every finalized pipeline the inbound chain is wired
forward and the outbound chain backward: each `inCtxs_[i]` points via
`nextIn` to `inCtxs_[i+1]` and the inbound tail's `nextIn` is null;
each `outCtxs_[i]` points via `nextOut` to `outCtxs_[i-1]` and the
outbound head's `nextOut` is null. -/
theorem claim_C1 (st : Bool) (ops : List Op) (q : Pipeline)
    (hq : q = (finalize (run st ops)).1) :
    (∀ i a b, q.inCtxs.get? i = some a → q.inCtxs.get? (i + 1) = some b →
      ∃ c, q.ctxs.find? (fun x => x.id == a) = some c ∧
        c.nextIn = some b) ∧
    (∀ a, q.inCtxs.getLast? = some a →
      ∃ c, q.ctxs.find? (fun x => x.id == a) = some c ∧ c.nextIn = none) ∧
    (∀ i a b, q.outCtxs.get? i = some a → q.outCtxs.get? (i + 1) = some b →
      ∃ c, q.ctxs.find? (fun x => x.id == b) = some c ∧
        c.nextOut = some a) ∧
    (∀ a, q.outCtxs.head? = some a →
      ∃ c, q.ctxs.find? (fun x => x.id == a) = some c ∧ c.nextOut = none) := by
  subst hq
  have hI := Inv_run st ops
  refine ⟨?_, ?_, ?_, ?_⟩
  · intro i a b ha hb
    rw [finalize_fst_inCtxs] at ha hb
    exact finalize_adjIn _ hI i a b ha hb
  · exact (Inv_finalize _ hI).htailIn
  · intro i a b ha hb
    rw [finalize_fst_outCtxs] at ha hb
    exact finalize_adjOut _ hI i a b ha hb
  · exact (Inv_finalize _ hI).hheadOut

/-- Witness for C1 on the finalized S5 chain: ids 0 (IN), 1 (BOTH),
2 (OUT); `inCtxs = [0, 1]`, `outCtxs = [1, 2]`. -/
theorem claim_C1_witness :
    (∃ c, (finalize (run false wops)).1.ctxs.find?
        (fun x => x.id == 0) = some c ∧ c.nextIn = some 1) ∧
    (∃ c, (finalize (run false wops)).1.ctxs.find?
        (fun x => x.id == 1) = some c ∧ c.nextIn = none) ∧
    (∃ c, (finalize (run false wops)).1.ctxs.find?
        (fun x => x.id == 2) = some c ∧ c.nextOut = some 1) ∧
    (∃ c, (finalize (run false wops)).1.ctxs.find?
        (fun x => x.id == 1) = some c ∧ c.nextOut = none) := by
  refine ⟨?_, ?_, ?_, ?_⟩
  · exact (claim_C1 false wops _ rfl).1 0 0 1 (by decide) (by decide)
  · exact (claim_C1 false wops _ rfl).2.1 1 (by decide)
  · exact (claim_C1 false wops _ rfl).2.2.1 0 1 2 (by decide) (by decide)
  · exact (claim_C1 false wops _ rfl).2.2.2 1 (by decide)

/-- Claim C2: after `finalize`, `front_` is the first inbound context
and `back_` the last outbound context; with no inbound (resp. outbound)
context, `front_` (resp. `back_`) is and stays null. -/
theorem claim_C2 (st : Bool) (ops : List Op) (q : Pipeline)
    (hq : q = (finalize (run st ops)).1) :
    (q.inCtxs ≠ [] → q.front = q.inCtxs.head?) ∧
    (q.inCtxs = [] → q.front = none) ∧
    (q.outCtxs ≠ [] → q.back = q.outCtxs.getLast?) ∧
    (q.outCtxs = [] → q.back = none) := by
  subst hq
  have hI := Inv_run st ops
  refine ⟨?_, (Inv_finalize _ hI).hfront, ?_, (Inv_finalize _ hI).hback⟩
  · intro hne
    rw [finalize_fst_inCtxs] at hne ⊢
    rw [finalize_fst_front]
    cases hin : (run st ops).inCtxs with
    | nil => exact absurd hin hne
    | cons x xs => simp
  · intro hne
    rw [finalize_fst_outCtxs] at hne ⊢
    rw [finalize_fst_back]
    cases hout : (run st ops).outCtxs with
    | nil => exact absurd hout hne
    | cons x xs => simp

/-- Witness for C2: the finalized S5 chain (both directions serviced)
and the finalized empty pipeline (neither serviced). -/
theorem claim_C2_witness :
    (finalize (run false wops)).1.front
        = (finalize (run false wops)).1.inCtxs.head? ∧
    (finalize (run false wops)).1.back
        = (finalize (run false wops)).1.outCtxs.getLast? ∧
    (finalize (run false [])).1.front = none ∧
    (finalize (run false [])).1.back = none := by
  refine ⟨?_, ?_, ?_, ?_⟩
  · exact (claim_C2 false wops _ rfl).1 (by decide)
  · exact (claim_C2 false wops _ rfl).2.2.1 (by decide)
  · exact (claim_C2 false [] _ rfl).2.1 (by decide)
  · exact (claim_C2 false [] _ rfl).2.2.2 (by decide)

/-- Claim C6: after any assembly sequence, `inCtxs_` is exactly the id
sequence of the contexts of `ctxs_` whose direction is IN or BOTH,
`outCtxs_` of those with OUT or BOTH (both in `ctxs_` order, which
fixes the relative order of any two contexts), and no context occurs
twice. -/
theorem claim_C6 (st : Bool) (ops : List Op) (q : Pipeline)
    (hq : q = run st ops) :
    q.inCtxs = (q.ctxs.filter fun c => hasInDir c.dir).map (fun c => c.id) ∧
    q.outCtxs = (q.ctxs.filter fun c => hasOutDir c.dir).map (fun c => c.id) ∧
    (q.ctxs.map fun c => c.id).Nodup := by
  subst hq
  exact ⟨(Inv_run st ops).hin, (Inv_run st ops).hout, (Inv_run st ops).hnd⟩

/-- Witness for C6: the S5 chain assembled with one `addFront`. -/
theorem claim_C6_witness :
    (run false (wops ++ [Op.add true HandlerDir.IN 13 103])).inCtxs
        = (((run false (wops ++ [Op.add true HandlerDir.IN 13 103])).ctxs.filter
            fun c => hasInDir c.dir).map fun c => c.id) ∧
    (run false (wops ++ [Op.add true HandlerDir.IN 13 103])).outCtxs
        = (((run false (wops ++ [Op.add true HandlerDir.IN 13 103])).ctxs.filter
            fun c => hasOutDir c.dir).map fun c => c.id) ∧
    ((run false (wops ++ [Op.add true HandlerDir.IN 13 103])).ctxs.map
        fun c => c.id).Nodup :=
  claim_C6 false (wops ++ [Op.add true HandlerDir.IN 13 103]) _ rfl

/-- Two members of a duplicate-free context list with equal ids are the
same context. -/
theorem eq_of_mem_of_id_eq {l : List PipelineContext}
    (hnd : (l.map fun c => c.id).Nodup) {c c' : PipelineContext}
    (hc : c ∈ l) (hc' : c' ∈ l) (h : c.id = c'.id) : c = c' := by
  have h1 := find?_of_nodup hnd hc
  have h2 := find?_of_nodup hnd hc'
  rw [h, h2] at h1
  exact (Option.some.injEq _ _ ▸ h1 : c' = c).symm

/-- Rewriting a context-to-event map through the id sequence. -/
theorem map_event_eq_map_map (g : Nat → PEvent) (l : List PipelineContext) :
    l.map (fun c => g c.id) = (l.map fun c => c.id).map g := by
  rw [List.map_map]
  rfl

/-- The constructor `PEvent.attach` is injective. -/
theorem attach_injective : Function.Injective PEvent.attach := by
  intro a b h
  injection h

/-- The constructor `PEvent.detach` is injective. -/
theorem detach_injective : Function.Injective PEvent.detach := by
  intro a b h
  injection h

/-- Claim C4: `finalize` invokes `attachPipeline` exactly once on each
context, in reverse `ctxs_` order (back to front). -/
theorem claim_C4 (st : Bool) (ops : List Op) (p : Pipeline)
    (hp : p = run st ops) :
    (finalize p).2 = p.ctxs.reverse.map (fun c => PEvent.attach c.id) ∧
    ∀ c ∈ p.ctxs, (finalize p).2.count (PEvent.attach c.id) = 1 := by
  subst hp
  have hI := Inv_run st ops
  have hids : (wireOut (wireIn (run st ops).ctxs (run st ops).inCtxs)
        (run st ops).outCtxs).map (fun c => c.id)
      = (run st ops).ctxs.map fun c => c.id := by
    rw [wireOut_ids, wireIn_ids]
  have htrace : (finalize (run st ops)).2
      = (run st ops).ctxs.reverse.map fun c => PEvent.attach c.id := by
    rw [finalize_snd, List.map_reverse, List.map_reverse,
      map_event_eq_map_map PEvent.attach, map_event_eq_map_map PEvent.attach,
      hids]
  refine ⟨htrace, ?_⟩
  intro c hc
  rw [htrace, List.map_reverse, List.count_reverse,
    map_event_eq_map_map PEvent.attach,
    List.count_map_of_injective _ PEvent.attach attach_injective]
  exact List.count_eq_one_of_mem hI.hnd (List.mem_map_of_mem _ hc)

/-- Witness for C4 on the S5 chain: the trace is the reversed id list
and the middle context is attached exactly once. -/
theorem claim_C4_witness :
    (finalize (run false wops)).2
        = (run false wops).ctxs.reverse.map (fun c => PEvent.attach c.id) ∧
    (finalize (run false wops)).2.count (PEvent.attach 1) = 1 := by
  refine ⟨(claim_C4 false wops _ rfl).1, ?_⟩
  exact (claim_C4 false wops _ rfl).2
    ⟨1, HandlerDir.BOTH, 11, 101, none, none⟩ (by decide)

/-- Claim C5: destroying a non-static pipeline calls `detachPipeline`
exactly once on every context except the owner context, in forward
`ctxs_` order (a sublist of the forward detach sequence); the owner
context receives no call; a static pipeline's destructor calls
nothing. -/
theorem claim_C5 (st : Bool) (ops : List Op) (p : Pipeline)
    (hp : p = run st ops) :
    (p.isStatic = true → destructPipeline p = []) ∧
    (p.isStatic = false →
      List.Sublist (destructPipeline p)
        (p.ctxs.map fun c => PEvent.detach c.id) ∧
      ∀ c ∈ p.ctxs,
        (p.owner = some c.id → PEvent.detach c.id ∉ destructPipeline p) ∧
        (p.owner ≠ some c.id →
          (destructPipeline p).count (PEvent.detach c.id) = 1)) := by
  subst hp
  have hI := Inv_run st ops
  constructor
  · intro hs
    simp [destructPipeline, hs]
  · intro hs
    have hdes : destructPipeline (run st ops) = detachHandlers (run st ops) := by
      simp [destructPipeline, hs]
    rw [hdes]
    constructor
    · exact List.Sublist.map _ (List.filter_sublist _)
    · intro c hc
      constructor
      · intro how hmem
        unfold detachHandlers at hmem
        obtain ⟨c2, hc2, he⟩ := List.mem_map.mp hmem
        have hid : c2.id = c.id := by injection he
        have hc2m : c2 ∈ (run st ops).ctxs := List.mem_of_mem_filter hc2
        have hceq : c2 = c := eq_of_mem_of_id_eq hI.hnd hc2m hc hid
        have hpass := List.of_mem_filter hc2
        rw [hceq, how] at hpass
        simp at hpass
      · intro hnot
        unfold detachHandlers
        rw [map_event_eq_map_map PEvent.detach,
          List.count_map_of_injective _ PEvent.detach detach_injective]
        have hndf : (((run st ops).ctxs.filter
            fun c => !((run st ops).owner == some c.id)).map
              fun c => c.id).Nodup :=
          List.Nodup.sublist (List.Sublist.map _ (List.filter_sublist _))
            hI.hnd
        refine List.count_eq_one_of_mem hndf (List.mem_map_of_mem _ ?_)
        refine List.mem_filter.mpr ⟨hc, ?_⟩
        simpa using hnot

/-- Witness for C5: the static S5 chain detaches nothing; in the
non-static chain with the BOTH handler as owner, the owner id 1 is
never detached while the IN handler id 0 is detached once. -/
theorem claim_C5_witness :
    destructPipeline (run true wops) = [] ∧
    PEvent.detach 1 ∉ destructPipeline (run false wops5) ∧
    (destructPipeline (run false wops5)).count (PEvent.detach 0) = 1 := by
  refine ⟨(claim_C5 true wops _ rfl).1 rfl, ?_, ?_⟩
  · exact (((claim_C5 false wops5 _ rfl).2 rfl).2
      ⟨1, HandlerDir.BOTH, 11, 101, none, none⟩ (by decide)).1 (by decide)
  · exact (((claim_C5 false wops5 _ rfl).2 rfl).2
      ⟨0, HandlerDir.IN, 10, 100, none, none⟩ (by decide)).2 (by decide)

/-- Pipelines with equal fields are equal. -/
theorem Pipeline_ext {p q : Pipeline} (h1 : p.isStatic = q.isStatic)
    (h2 : p.owner = q.owner) (h3 : p.ctxs = q.ctxs)
    (h4 : p.inCtxs = q.inCtxs) (h5 : p.outCtxs = q.outCtxs)
    (h6 : p.front = q.front) (h7 : p.back = q.back)
    (h8 : p.manager = q.manager) (h9 : p.nextId = q.nextId) : p = q := by
  cases p
  cases q
  congr 1

/-- Writing a value already present in the slot is the identity. -/
theorem setNextIn_eq_self (l : List PipelineContext) (a : Nat)
    (v : Option Nat) (h : ∀ c ∈ l, c.id = a → c.nextIn = v) :
    setNextIn l a v = l := by
  induction l with
  | nil => rfl
  | cons c tl ih =>
    show (if c.id == a then { c with nextIn := v } else c)
        :: setNextIn tl a v = c :: tl
    rw [ih fun c2 hc2 => h c2 (List.mem_cons_of_mem _ hc2)]
    by_cases hc : c.id = a
    · rw [if_pos (by simp [hc]), ← h c (List.mem_cons_self c tl) hc]
    · rw [if_neg (by simp [hc])]

/-- Writing a value already present in the slot is the identity. -/
theorem setNextOut_eq_self (l : List PipelineContext) (a : Nat)
    (v : Option Nat) (h : ∀ c ∈ l, c.id = a → c.nextOut = v) :
    setNextOut l a v = l := by
  induction l with
  | nil => rfl
  | cons c tl ih =>
    show (if c.id == a then { c with nextOut := v } else c)
        :: setNextOut tl a v = c :: tl
    rw [ih fun c2 hc2 => h c2 (List.mem_cons_of_mem _ hc2)]
    by_cases hc : c.id = a
    · rw [if_pos (by simp [hc]), ← h c (List.mem_cons_self c tl) hc]
    · rw [if_neg (by simp [hc])]

/-- Re-running the inbound wiring loop on an already-wired list is the
identity. -/
theorem wireIn_eq_self : ∀ (ids : List Nat) (l : List PipelineContext),
    (∀ i a b, ids.get? i = some a → ids.get? (i + 1) = some b →
      ∀ c ∈ l, c.id = a → c.nextIn = some b) → wireIn l ids = l
  | [], _, _ => rfl
  | [_], _, _ => rfl
  | a :: b :: rest, l, h => by
    rw [wireIn, setNextIn_eq_self l a (some b)
      fun c hc hid => h 0 a b rfl rfl c hc hid]
    exact wireIn_eq_self (b :: rest) l fun i a' b' ha hb =>
      h (i + 1) a' b' (by simpa using ha) (by simpa using hb)

/-- Re-running the outbound wiring loop on an already-wired list is the
identity. -/
theorem wireOut_eq_self : ∀ (ids : List Nat) (l : List PipelineContext),
    (∀ i a b, ids.get? i = some a → ids.get? (i + 1) = some b →
      ∀ c ∈ l, c.id = b → c.nextOut = some a) → wireOut l ids = l
  | [], _, _ => rfl
  | [_], _, _ => rfl
  | a :: b :: rest, l, h => by
    rw [wireOut, wireOut_eq_self (b :: rest) l fun i a' b' ha hb =>
      h (i + 1) a' b' (by simpa using ha) (by simpa using hb)]
    exact setNextOut_eq_self l b (some a)
      fun c hc hid => h 0 a b rfl rfl c hc hid

/-- Claim C7: `finalize` is idempotent on the wiring state — a second
`finalize` with no assembly mutation in between reproduces the whole
pipeline state (in particular `front`, `back` and all neighbour
slots). -/
theorem claim_C7 (st : Bool) (ops : List Op) (q : Pipeline)
    (hq : q = (finalize (run st ops)).1) : (finalize q).1 = q := by
  have hI := Inv_run st ops
  have hIq : Inv q := hq ▸ Inv_finalize _ hI
  have hadjIn : ∀ i a b, q.inCtxs.get? i = some a →
      q.inCtxs.get? (i + 1) = some b →
      ∀ c ∈ q.ctxs, c.id = a → c.nextIn = some b := by
    intro i a b ha hb c hc hid
    have ha' : (run st ops).inCtxs.get? i = some a := by
      rw [hq, finalize_fst_inCtxs] at ha
      exact ha
    have hb' : (run st ops).inCtxs.get? (i + 1) = some b := by
      rw [hq, finalize_fst_inCtxs] at hb
      exact hb
    obtain ⟨c', hc', hn'⟩ := finalize_adjIn _ hI i a b ha' hb'
    rw [← hq] at hc'
    have hfind := find?_of_nodup hIq.hnd hc
    rw [hid, hc'] at hfind
    obtain rfl : c = c' := by
      injection hfind.symm
    exact hn'
  have hadjOut : ∀ i a b, q.outCtxs.get? i = some a →
      q.outCtxs.get? (i + 1) = some b →
      ∀ c ∈ q.ctxs, c.id = b → c.nextOut = some a := by
    intro i a b ha hb c hc hid
    have ha' : (run st ops).outCtxs.get? i = some a := by
      rw [hq, finalize_fst_outCtxs] at ha
      exact ha
    have hb' : (run st ops).outCtxs.get? (i + 1) = some b := by
      rw [hq, finalize_fst_outCtxs] at hb
      exact hb
    obtain ⟨c', hc', hn'⟩ := finalize_adjOut _ hI i a b ha' hb'
    rw [← hq] at hc'
    have hfind := find?_of_nodup hIq.hnd hc
    rw [hid, hc'] at hfind
    obtain rfl : c = c' := by
      injection hfind.symm
    exact hn'
  have hwin : wireIn q.ctxs q.inCtxs = q.ctxs :=
    wireIn_eq_self q.inCtxs q.ctxs hadjIn
  have hwout : wireOut q.ctxs q.outCtxs = q.ctxs :=
    wireOut_eq_self q.outCtxs q.ctxs hadjOut
  have hfrontq : (if q.inCtxs.isEmpty then q.front else q.inCtxs.head?)
      = q.front := by
    cases hin : q.inCtxs with
    | nil => simp
    | cons x xs =>
      have hin' : (run st ops).inCtxs = x :: xs := by
        rw [hq, finalize_fst_inCtxs] at hin
        exact hin
      rw [hq, finalize_fst_front, hin']
      simp
  have hbackq : (if q.outCtxs.isEmpty then q.back else q.outCtxs.getLast?)
      = q.back := by
    cases hout : q.outCtxs with
    | nil => simp
    | cons x xs =>
      have hout' : (run st ops).outCtxs = x :: xs := by
        rw [hq, finalize_fst_outCtxs] at hout
        exact hout
      rw [hq, finalize_fst_back, hout']
      simp
  refine Pipeline_ext rfl rfl ?_ rfl rfl ?_ ?_ rfl rfl
  · rw [finalize_fst_ctxs, hwin, hwout]
  · rw [finalize_fst_front, hfrontq]
  · rw [finalize_fst_back, hbackq]

/-- Witness for C7: re-finalizing the finalized S5 chain reproduces the
state exactly. -/
theorem claim_C7_witness :
    (finalize (finalize (run false wops)).1).1
      = (finalize (run false wops)).1 :=
  claim_C7 false wops _ rfl

end Wangle
